import Mathlib

/-!
Shallow embedding of the recognition core of `wf_fissure_price`
(crate `src/lib`): the tokenized item catalog and fuzzy matcher
(`src/lib/src/wfinfo.rs`), theme detection and binarization
(`src/lib/src/theme.rs`), part segmentation and the post-OCR
resolution loop (`src/lib/src/ocr.rs`), and the scale gate
(`src/lib/src/util.rs`).

Modelling conventions:
* Rust `String`/`&str` values are `List Char` (`Str`); `f32` values are
  modelled as exact rationals (`ℚ`), with decimal literals of the source
  read as exact decimals;
* fallible operations return `Option`/`Except`; a Rust panic (out of
  bounds indexing, `unwrap` on `None`) is the `none` of an outer
  `Option` layer;
* `HashMap` values whose iteration order the claims depend on are
  modelled as association lists in insertion order;
* the transcendental column weighting `cos(8πx/width)^3` of
  `Theme::filter` is not representable in ℚ and is abstracted as an
  explicit function parameter `cosF`; every statement below holds for
  an arbitrary such function.
-/

/- Batteries marks the `Rat` arithmetic operations `@[irreducible]`, which
blocks `decide`/`rfl` evaluation of the exact-rational color arithmetic
below; restore the default transparency for this file. -/
attribute [local semireducible] Rat.add Rat.sub Rat.mul Rat.inv Rat.ofScientific

namespace WFP

/-- Strings are lists of unicode scalar values, as in Rust. -/
abbrev Str := List Char

/-- `char::is_ascii_whitespace`: space, tab, newline, form feed, carriage return. -/
def isAsciiWhitespace (c : Char) : Bool :=
  c == ' ' || c == '\t' || c == '\n' || c == Char.ofNat 12 || c == '\r'

/-- `str::trim`: remove leading and trailing whitespace (the ASCII
whitespace set suffices for every name handled by this crate). -/
def trimStr (s : Str) : Str :=
  ((s.dropWhile isAsciiWhitespace).reverse.dropWhile isAsciiWhitespace).reverse

/-- Helper for `splitAsciiWhitespace`: `acc` holds the current token reversed. -/
def splitAWAux : Str → Str → List Str
  | [], acc => if acc.isEmpty then [] else [acc.reverse]
  | c :: cs, acc =>
    if isAsciiWhitespace c then
      if acc.isEmpty then splitAWAux cs [] else acc.reverse :: splitAWAux cs []
    else
      splitAWAux cs (c :: acc)

/-- `str::split_ascii_whitespace`: whitespace-separated tokens, no empties. -/
def splitAsciiWhitespace (s : Str) : List Str :=
  splitAWAux s []

/-- `str::starts_with` (case sensitive). -/
def startsWithStr (s p : Str) : Bool :=
  p.isPrefixOf s

/-- `str::ends_with` (case sensitive). -/
def endsWithStr (s p : Str) : Bool :=
  p.reverse.isPrefixOf s.reverse

/-- Helper for `replaceStr`, fuelled to make the recursion structural;
`fuel = s.length` always suffices for a non-empty pattern. -/
def replaceAux : Nat → Str → Str → Str → Str
  | 0, s, _, _ => s
  | _ + 1, [], _, _ => []
  | fuel + 1, c :: cs, pat, sub =>
    if pat.isPrefixOf (c :: cs) then
      sub ++ replaceAux fuel ((c :: cs).drop pat.length) pat sub
    else
      c :: replaceAux fuel cs pat sub

/-- `str::replace`: replace every non-overlapping occurrence, left to right. -/
def replaceStr (s pat sub : Str) : Str :=
  replaceAux s.length s pat sub

/-- Minimum of three naturals. -/
def min3 (a b c : Nat) : Nat :=
  min a (min b c)

/-- Modelled from the documented contract of the external `levenshtein`
crate (`levenshtein::levenshtein`, a dependency outside this repository):
the Levenshtein edit distance, here in its classic recursive form,
fuelled so that the recursion is structural.  `fuel ≥ |a| + |b|` always
suffices. -/
def levFuel : Nat → Str → Str → Nat
  | _, [], bs => bs.length
  | _, _ :: as, [] => as.length + 1
  | 0, _ :: _, _ :: _ => 1
  | fuel + 1, a :: as, b :: bs =>
    if a = b then levFuel fuel as bs
    else 1 + min3 (levFuel fuel as bs) (levFuel fuel (a :: as) bs) (levFuel fuel as (b :: bs))

/-- Levenshtein edit distance between two strings. -/
def levenshtein (a b : Str) : Nat :=
  levFuel (a.length + b.length) a b

/-! ## Item catalog and fuzzy matcher (`src/lib/src/wfinfo.rs`) -/

/-- `wfinfo::price_data::PriceItem`. -/
structure PriceItem where
  name : Str
  custom_avg : ℚ
  deriving DecidableEq

/-- `wfinfo::item_data::DucatItem`. -/
structure DucatItem where
  ducats : Nat
  deriving DecidableEq

/-- `wfinfo::item_data::EquipmentItem` (`item_type` is irrelevant to every
claim and omitted; `parts` is a `HashMap` modelled in iteration order). -/
structure EquipmentItem where
  vaulted : Bool
  parts : List (Str × DucatItem)
  deriving DecidableEq

/-- `wfinfo::item_data::FilteredItems` (the `errors` and `relics` fields are
dropped by `Items::new` and omitted; the maps are in iteration order). -/
structure FilteredItems where
  eqmt : List (Str × EquipmentItem)
  ignored_items : List (Str × DucatItem)
  deriving DecidableEq

/-- `wfinfo::Item`. -/
structure Item where
  tokens : List Str
  name : Str
  platinum : Option ℚ
  ducats : Option Nat
  ignored : Bool
  vaulted : Bool
  deriving DecidableEq

/-- `Item::new`: tokens are the whitespace-split of the name. -/
def Item.new (name : Str) (platinum : Option ℚ) (ducats : Option Nat)
    (ignored vaulted : Bool) : Item :=
  ⟨splitAsciiWhitespace name, name, platinum, ducats, ignored, vaulted⟩

/-- `wfinfo::Items`. -/
structure Items where
  items : List Item
  min_len : Nat
  max_len : Nat
  deriving DecidableEq

/-- The price-merge lookup inside the `Items::new` loop: the first price
entry not ending in `"Set"` whose name — after fixing the upstream
`"Reciever"` typo — starts with the part name, case sensitively. -/
def priceLookup (price_items : List PriceItem) (name : Str) : Option ℚ :=
  ((price_items.filter fun item => !endsWithStr item.name "Set".toList).find? fun item =>
      startsWithStr (replaceStr item.name "Reciever".toList "Receiver".toList) name).map
    (fun item => item.custom_avg)

/-- The `eqmt` flattening inside `Items::new`: every part of every
equipment record, tagged with the record's `vaulted` flag. -/
def eqmtParts (filtered_items : FilteredItems) : List (Bool × (Str × DucatItem)) :=
  filtered_items.eqmt.flatMap fun e => e.2.parts.map fun item => (e.2.vaulted, item)

/-- `Items::new`: an empty price list short-circuits to the empty catalog;
otherwise ignored names (no price) are followed by the merged equipment
parts, and the name-length bounds are computed over all entries. -/
def Items.new (price_items : List PriceItem) (filtered_items : FilteredItems) : Items :=
  if price_items.isEmpty then ⟨[], 0, 0⟩
  else
    let ignored := filtered_items.ignored_items.map fun p => Item.new p.1 none none true false
    let merged := (eqmtParts filtered_items).map fun p =>
      Item.new p.2.1 (priceLookup price_items p.2.1) (some p.2.2.ducats) false p.1
    let items := ignored ++ merged
    ⟨items,
      ((items.map fun item => item.name.length).min?).getD 0,
      ((items.map fun item => item.name.length).max?).getD 0⟩

/-- `Iterator::min_by_key` over `(item, score)` pairs: the first pair of
minimal score, or `none` on an empty iterator. -/
def minByScore : List (Item × Nat) → Option (Item × Nat)
  | [] => none
  | p :: ps => some (ps.foldl (fun m q => if q.2 < m.2 then q else m) p)

/-- The per-token selection of `Items::find_item`: among the still-alive
candidates having an `i`-th token, keep those whose `i`-th token is within
Levenshtein distance `token.len / 3` of the input token, and return the
first one of minimal distance. -/
def bestMatchAt (current : List Item) (i : Nat) (token : Str) : Option (Item × Nat) :=
  minByScore
    (((current.filter fun item => i < item.tokens.length).map fun item =>
        (item, levenshtein (item.tokens.getD i []) token)).filter fun p =>
      (p.1.tokens.getD i []).length / 3 ≥ p.2)

/-- One iteration of the `find_item` loop.  When a best match exists the
source prunes with `current_matches.retain(|item| item.tokens[i] == best)`;
that closure indexes `item.tokens[i]` on *every* element, so an element
with `i` or fewer tokens makes the whole call panic (`none`). -/
def findStep (current : List Item) (i : Nat) (token : Str) : Option (List Item) :=
  match bestMatchAt current i token with
  | none => some current
  | some (best_match, _) =>
    let best_matched_token := best_match.tokens.getD i []
    if current.all fun item => i < item.tokens.length then
      some (current.filter fun item => item.tokens.getD i [] == best_matched_token)
    else
      none

/-- The `for (i, token) in item_name.split_ascii_whitespace().enumerate()`
loop of `find_item`; `none` is a propagated panic. -/
def findLoop : List Item → Nat → List Str → Option (List Item)
  | current, _, [] => some current
  | current, i, token :: rest =>
    match findStep current i token with
    | none => none
    | some next => findLoop next (i + 1) rest

/-- `Items::find_item`.  Outer `Option` is panic (out-of-bounds indexing in
the `retain` closure); the inner `Option` is the source's return value. -/
def Items.find_item (self : Items) (item_name : Str) : Option (Option Item) :=
  let item_name := trimStr item_name
  if !(decide (self.min_len ≤ item_name.length) && decide (item_name.length ≤ self.max_len)) then
    some none
  else
    match findLoop self.items 0 (splitAsciiWhitespace item_name) with
    | none => none
    | some current => some current.head?

/-- No entry's token sequence is a prefix (proper or equal) of another
entry's: the catalog is unambiguous for exact-name lookups. -/
def PrefixFree (items : List Item) : Prop :=
  items.Pairwise fun a b => ¬a.tokens <+: b.tokens ∧ ¬b.tokens <+: a.tokens

/-! ## The post-OCR resolution loop of `reward_image_to_items`
(`src/lib/src/ocr.rs`): each recognized string is resolved with
`find_item`; the first unresolved string makes the whole function return
`Ok((vec![], theme))`, discarding every already-resolved slot. -/

/-- The `for item_og in text` loop of `reward_image_to_items`.  Outer
`Option` is a propagated `find_item` panic; the inner `Option` is `none`
when some string failed to resolve and the loop took the early
`return Ok((vec![], theme))`. -/
def rewardLoop (items : Items) : List Str → Option (Option (List Item))
  | [] => some (some [])
  | t :: ts =>
    match items.find_item t with
    | none => none
    | some none => some none
    | some (some it) =>
      match rewardLoop items ts with
      | none => none
      | some none => some none
      | some (some rest) => some (some (it :: rest))

/-- The item list `reward_image_to_items` pairs with the detected theme:
the resolved items, or the empty list when any slot failed to resolve. -/
def reward_texts_to_items (items : Items) (text : List Str) : Option (List Item) :=
  match rewardLoop items text with
  | none => none
  | some none => some []
  | some (some l) => some l

/-! ## Concrete fixtures used by witnesses and counterexamples -/

/-- A one-element price list (matching nothing below); `Items::new` only
needs it to be non-empty. -/
def pricesZ : List PriceItem := [⟨"Zzz".toList, 1⟩]

/-- Equipment metadata with parts `"Ash Prime"` and `"Ash"`, in that order. -/
def fiAsh : FilteredItems :=
  ⟨[("X".toList, ⟨false, [("Ash Prime".toList, ⟨0⟩), ("Ash".toList, ⟨0⟩)]⟩)], []⟩

/-- Equipment metadata with the single part `"Ash Prime"`. -/
def fiSingle : FilteredItems :=
  ⟨[("X".toList, ⟨false, [("Ash Prime".toList, ⟨0⟩)]⟩)], []⟩

instance (items : List Item) : Decidable (PrefixFree items) := by
  unfold PrefixFree
  infer_instance

/-! ## Colors, themes and images (`src/lib/src/theme.rs`, `src/lib/src/util.rs`)

`f32` color arithmetic is modelled over exact rationals; the decimal
literals of the source are read as exact decimals. -/

/-- An 8-bit RGB pixel (`image::Rgb<u8>`). -/
structure Rgb where
  r : ℕ
  g : ℕ
  b : ℕ
  deriving DecidableEq

/-- `palette::Hsl`: hue in degrees, saturation and lightness in `[0, 1]`. -/
structure Hsl where
  hue : ℚ
  saturation : ℚ
  lightness : ℚ
  deriving DecidableEq

/-- `RgbHue::into_positive_degrees`: normalize the hue into `[0, 360)`. -/
def posDegrees (h : ℚ) : ℚ := h - 360 * (⌊h / 360⌋ : ℚ)

/-- `palette` RGB→HSL conversion (`Hsl::from_color` of the `Srgb` whose
components are the pixel's channels divided by 255). -/
def rgbToHsl (c : Rgb) : Hsl :=
  let r : ℚ := c.r / 255
  let g : ℚ := c.g / 255
  let b : ℚ := c.b / 255
  let maxC := max r (max g b)
  let minC := min r (min g b)
  let l := (maxC + minC) / 2
  if maxC = minC then ⟨0, 0, l⟩
  else
    let d := maxC - minC
    let s := d / (1 - |2 * l - 1|)
    let h :=
      if maxC = r then 60 * ((g - b) / d)
      else if maxC = g then 60 * ((b - r) / d + 2)
      else 60 * ((r - g) / d + 4)
    ⟨h, s, l⟩

/-- `palette` HSL→RGB conversion (`Srgb::from_color`), components in
`[0, 1]`. -/
def hslToRgb (c : Hsl) : ℚ × ℚ × ℚ :=
  let h := posDegrees c.hue
  let ch := (1 - |2 * c.lightness - 1|) * c.saturation
  let hp := h / 60
  let x := ch * (1 - |hp - 2 * (⌊hp / 2⌋ : ℚ) - 1|)
  let m := c.lightness - ch / 2
  let rgb1 : ℚ × ℚ × ℚ :=
    if hp < 1 then (ch, x, 0)
    else if hp < 2 then (x, ch, 0)
    else if hp < 3 then (0, ch, x)
    else if hp < 4 then (0, x, ch)
    else if hp < 5 then (x, 0, ch)
    else (ch, 0, x)
  (rgb1.1 + m, rgb1.2.1 + m, rgb1.2.2 + m)

/-- `theme::Theme`; thresholds are `(Δhue, Δsaturation, Δlightness)`. -/
structure Theme where
  name : Str
  primary : Hsl
  secondary : Hsl
  primary_threshold : ℚ × ℚ × ℚ
  secondary_threshold : ℚ × ℚ × ℚ
  deriving DecidableEq

/-- `theme::color_difference`: sum of absolute RGB channel differences,
scaled by 255. -/
def color_difference (colors : Hsl × Hsl) : ℚ :=
  let rgb0 := hslToRgb colors.1
  let rgb1 := hslToRgb colors.2
  (|rgb0.1 - rgb1.1| + |rgb0.2.1 - rgb1.2.1| + |rgb0.2.2 - rgb1.2.2|) * 255

/-- `theme::threshold_filter_custom`: acceptance box test.  The source
builds the half-open ranges around the *pixel's* HSL components and asks
whether they contain the base color's components. -/
def threshold_filter_custom (base : Hsl) (color : Rgb) (threshold_h threshold_s threshold_l : ℚ) :
    Bool :=
  let c := rgbToHsl color
  let bh := posDegrees base.hue
  let h := posDegrees c.hue
  decide (h - threshold_h ≤ bh ∧ bh < h + threshold_h) &&
    decide (c.saturation - threshold_s ≤ base.saturation ∧
      base.saturation < c.saturation + threshold_s) &&
    decide (c.lightness - threshold_l ≤ base.lightness ∧
      base.lightness < c.lightness + threshold_l)

/-- `Theme::threshold_filter`: the primary acceptance box. -/
def Theme.threshold_filter (self : Theme) (color : Rgb) : Bool :=
  threshold_filter_custom self.primary color self.primary_threshold.1
    self.primary_threshold.2.1 self.primary_threshold.2.2

/-- A decoded raster image: dimensions plus a pixel function. -/
structure Image where
  width : ℕ
  height : ℕ
  pix : ℕ → ℕ → Rgb

/-- `util.rs` reference-resolution constants. -/
def PIXEL_BASE_RESOLUTION : ℚ := 1080

def PIXEL_REWARD_WIDTH : ℚ := 960

def PIXEL_REWARD_HEIGHT : ℚ := 240

def PIXEL_REWARD_Y : ℚ := 220

def PIXEL_REWARD_LINE_HEIGHT : ℚ := 48

/-- `util::FILTER_BACKGROUND` (`Rgb([255; 3])`). -/
def FILTER_BACKGROUND : Rgb := ⟨255, 255, 255⟩

/-- `util::FILTER_FOREGROUND` (`Rgb([0; 3])`). -/
def FILTER_FOREGROUND : Rgb := ⟨0, 0, 0⟩

/-- The error type of the `lib` crate.  `InvalidSize` is constructed by
`util::get_scale` (the enum declaration omits it, a snapshot
inconsistency); the pass-through variants for the OCR engine and JSON
parsing are collapsed into `recognition`. -/
inductive Error where
  | unknownTheme
  | invalidImageFormat
  | invalidSize (width height : ℕ)
  | recognition
  deriving DecidableEq

/-- `util::get_scale`: landscape images scale by `height / 1080`, portrait
images are rejected. -/
def get_scale (image : Image) : Except Error ℚ :=
  if image.width ≥ image.height then
    Except.ok ((image.height : ℚ) / PIXEL_BASE_RESOLUTION)
  else
    Except.error (Error.invalidSize image.width image.height)

/-- Rust `f32 as u32`: truncation toward zero, negative values to 0. -/
def u32ofQ (q : ℚ) : ℕ := ⌊q⌋.toNat

/-- The binarization predicate of `Theme::filter`: a pixel inside the
primary *or* the secondary acceptance box is foreground. -/
def Theme.filterPixel (self : Theme) (pixel : Rgb) : Bool :=
  threshold_filter_custom self.primary pixel self.primary_threshold.1
      self.primary_threshold.2.1 self.primary_threshold.2.2 ||
    threshold_filter_custom self.secondary pixel self.secondary_threshold.1
      self.secondary_threshold.2.1 self.secondary_threshold.2.2

/-- The binarized copy produced by `Theme::filter`. -/
def Theme.filterImage (self : Theme) (image : Image) : Image :=
  ⟨image.width, image.height, fun x y =>
    if self.filterPixel (image.pix x y) then FILTER_FOREGROUND else FILTER_BACKGROUND⟩

/-- Foreground-pixel count of column `x` in `Theme::filter`. -/
def Theme.colCount (self : Theme) (image : Image) (x : ℕ) : ℕ :=
  ((List.range image.height).filter fun y => self.filterPixel (image.pix x y)).length

/-- The `(total_even, total_odd)` accumulators of `Theme::filter`.
`cosF x` stands for the transcendental `cos(8·x·π / width)`, abstracted
as a parameter. -/
def Theme.filterTotals (self : Theme) (image : Image) (cosF : ℕ → ℚ) : ℚ × ℚ :=
  (List.range image.width).foldl
    (fun acc x =>
      let count := min (self.colCount image x) (image.height / 3)
      let cosine := cosF x
      let this_weight := cosine ^ 3 * (count : ℚ)
      if cosine < 0 then (acc.1 - this_weight, acc.2)
      else if cosine > 0 then (acc.1, acc.2 + this_weight)
      else acc)
    (0, 0)

/-- `Theme::filter`: the binarized image together with the accumulated
`(total_even, total_odd)` pair. -/
def Theme.filter (self : Theme) (image : Image) (cosF : ℕ → ℚ) : Image × (ℚ × ℚ) :=
  (self.filterImage image, self.filterTotals image cosF)

/-- `image::DynamicImage::crop_imm`: the rectangle clipped to bounds. -/
def cropImm (image : Image) (x y w h : ℕ) : Image :=
  let x0 := min x image.width
  let y0 := min y image.height
  ⟨min w (image.width - x0), min h (image.height - y0),
    fun i j => image.pix (x0 + i) (y0 + j)⟩

/-- The foreground count of a part's top half (`ocr.rs`, noise check). -/
def topHalfCount (image : Image) : ℕ :=
  ((List.range image.width).map fun x =>
    ((List.range image.height).filter fun y =>
      decide (y < image.height / 2) && decide (image.pix x y = FILTER_FOREGROUND)).length).sum

/-- The per-part cleanup of `filter_and_separate_parts_from_part_box`:
a top half holding between 1 and 300 foreground pixels is blanked. -/
def cleanPart (image : Image) : Image :=
  let top_half_count := topHalfCount image
  if 0 < top_half_count ∧ top_half_count ≤ 300 then
    ⟨image.width, image.height, fun x y =>
      if y < image.height / 2 then FILTER_BACKGROUND else image.pix x y⟩
  else image

/-- `ocr::filter_and_separate_parts_from_part_box`. -/
def filter_and_separate_parts_from_part_box (image : Image) (theme : Theme)
    (cosF : ℕ → ℚ) : List Image :=
  let filtered := (theme.filter image cosF).1
  let total_even := (theme.filter image cosF).2.1
  let total_odd := (theme.filter image cosF).2.2
  if total_even = 0 ∧ total_odd = 0 then []
  else
    let box_width := filtered.width / 4
    let box_height := filtered.height
    let start := if total_odd > total_even then (box_width / 2, 3) else (0, 4)
    (List.range start.2).map fun i =>
      cleanPart (cropImm filtered (start.1 + i * box_width) 0 box_width box_height)

/-- `Themes::closest_from_color`: the first theme at minimal perceptual
distance to the color; `none` models the source's `unwrap` panic on an
empty theme list. -/
def closest_from_color (themes : List Theme) (color : Rgb) : Option (Theme × ℚ) :=
  let hsl := rgbToHsl color
  match themes.map fun theme => (theme, color_difference (theme.primary, hsl)) with
  | [] => none
  | p :: ps => some (ps.foldl (fun m q => if q.2 < m.2 then q else m) p)

/-- `weights.entry(name).or_insert(0.0) += w` on the association list. -/
def addWeight : List (Str × ℚ) → Str → ℚ → List (Str × ℚ)
  | [], k, v => [(k, v)]
  | (k', v') :: rest, k, v =>
    if k' = k then (k', v' + v) :: rest else (k', v') :: addWeight rest k v

/-- `Iterator::max_by` over the accumulated weights; Rust's `max_by`
returns the *last* of equally-maximal elements. -/
def maxBySnd : List (Str × ℚ) → Option (Str × ℚ)
  | [] => none
  | p :: ps => some (ps.foldl (fun m q => if q.2 < m.2 then m else q) p)

/-- The pixels sampled by `detect_theme` on row `y`: a horizontally
centered window whose width grows linearly down the scan region. -/
def rowSampleXs (line_height most_width min_width : ℚ) (imageHeight y : ℕ) : List ℕ :=
  let perc := ((y : ℚ) - line_height) / ((imageHeight : ℚ) - line_height)
  let total_width := min_width * perc + min_width
  (List.range (u32ofQ total_width)).map fun x => x + u32ofQ (most_width - total_width) / 2

/-- All pixel coordinates sampled by `detect_theme`, row by row. -/
def samplePoints (image : Image) (scale : ℚ) : List (ℕ × ℕ) :=
  let line_height := PIXEL_REWARD_LINE_HEIGHT / 2 * scale
  let most_width := PIXEL_REWARD_WIDTH * scale
  let min_width := most_width / 4
  (List.range' (u32ofQ line_height) (image.height - u32ofQ line_height)).flatMap fun y =>
    (rowSampleXs line_height most_width min_width image.height y).map fun x => (x, y)

/-- The per-pixel voting step of `detect_theme`: every sampled pixel votes
`1 / (1 + distance)⁴` for its *nearest* theme, whatever the distance.
`none` is the propagated `unwrap` panic of `closest_from_color`. -/
def voteFold (themes : List Theme) (image : Image)
    (acc : Option (List (Str × ℚ))) (p : ℕ × ℕ) : Option (List (Str × ℚ)) :=
  match acc with
  | none => none
  | some ws =>
    match closest_from_color themes (image.pix p.1 p.2) with
    | none => none
    | some closest => some (addWeight ws closest.1.name (1 / (1 + closest.2) ^ 4))

/-- `Themes::detect_theme`.  The parallel per-row fold/reduce is modelled
as one sequential fold over the sampled pixels; the reduce is an
associative merge of per-theme sums, so only the insertion order of keys
(immaterial to every claim below) is fixed by this.  Outer `Option`:
panic of `closest_from_color`'s `unwrap` on an empty catalog. -/
def detect_theme (themes : List Theme) (image : Image) (scale : ℚ) :
    Option (Option Theme) :=
  let wsOpt := (samplePoints image scale).foldl (voteFold themes image) (some [])
  match wsOpt with
  | none => none
  | some ws =>
    match maxBySnd ws with
    | none => some none
    | some result =>
      match themes.find? fun theme => theme.name == result.1 with
      | none => some none
      | some theme => some (some theme)

/-- `theme::DEFAULT_THEMES_SLICE`, with the source's `f32` literals read
as exact decimals. -/
def DEFAULT_THEMES_SLICE : List Theme := [
  ⟨"Baruuk".toList,
    ⟨39.69925, 0.79640734, 0.67254907⟩,
    ⟨39.729736, 0.66071445, 0.78039217⟩,
    (4, 0.16, 0.05), (2, 0.16, 0.05)⟩,
  ⟨"Conquera".toList,
    ⟨0, 0, 1⟩,
    ⟨45.000004, 0.78260887, 0.81960785⟩,
    (2, 0.05, 0.05), (16, 0.16, 0.075)⟩,
  ⟨"Corpus".toList,
    ⟨192.57143, 0.9130436, 0.54901963⟩,
    ⟨190.14084, 0.972603, 0.71372557⟩,
    (8, 0.125, 0.2), (16, 0.2, 0.05)⟩,
  ⟨"DarkLotus".toList,
    ⟨285.0, 0.114754096, 0.52156866⟩,
    ⟨267.35297, 0.6538463, 0.79607844⟩,
    (8, 0.05, 0.05), (2, 0.16, 0.16)⟩,
  ⟨"Deadlock".toList,
    ⟨0, 0, 1⟩,
    ⟨51.57025, 0.6994221, 0.66078436⟩,
    (2, 0.05, 0.05), (8, 0.175, 0.075)⟩,
  ⟨"Equinox".toList,
    ⟨233.33333, 0.04864865, 0.63725495⟩,
    ⟨0, 0.09803931, 0.9000001⟩,
    (8, 0.25, 0.1), (16, 0.25, 0.1)⟩,
  ⟨"Fortuna".toList,
    ⟨218.66667, 0.5421686, 0.48823535⟩,
    ⟨310.7143, 1, 0.7254902⟩,
    (2, 0.125, 0.075), (8, 0.2, 0.1)⟩,
  ⟨"Grineer".toList,
    ⟨34.11765, 1, 0.70000005⟩,
    ⟨41.764717, 1, 0.8⟩,
    (8, 0.15, 0.1), (16, 0.2, 0.05)⟩,
  ⟨"HighContrast".toList,
    ⟨210.9804, 1, 0.70000005⟩,
    ⟨60.0, 1, 0.5⟩,
    (8, 0.1, 0.05), (2, 0.05, 0.05)⟩,
  ⟨"Legacy".toList,
    ⟨0, 0, 1⟩,
    ⟨51.798565, 0.7513515, 0.63725495⟩,
    (2, 0.05, 0.05), (4, 0.15, 0.15)⟩,
  ⟨"Lotus".toList,
    ⟨196.8932, 0.88793117, 0.54509807⟩,
    ⟨46.875015, 1, 0.8745098⟩,
    (4, 0.16, 0.1), (16, 0.15, 0.05)⟩,
  ⟨"LunarRenewal".toList,
    ⟨0, 0, 1⟩,
    ⟨45.119995, 0.565611, 0.5666667⟩,
    (2, 0.05, 0.05), (4, 0.175, 0.075)⟩,
  ⟨"Nidus".toList,
    ⟨328.2353, 0.57303375, 0.34901962⟩,
    ⟨353.02325, 0.8958335, 0.62352943⟩,
    (4, 0.25, 0.075), (2, 0.05, 0.05)⟩,
  ⟨"Orokin".toList,
    ⟨145.7143, 0.34426227, 0.11960785⟩,
    ⟨41.6185, 0.9453552, 0.35882354⟩,
    (8, 0.35, 0.1), (2, 0.15, 0.05)⟩,
  ⟨"Pom2".toList,
    ⟨133.40425, 0.6025642, 0.69411767⟩,
    ⟨132.72728, 0.980198, 0.39607847⟩,
    (2, 0.25, 0.1), (2, 0.05, 0.05)⟩,
  ⟨"Stalker".toList,
    ⟨358.03278, 0.6630435, 0.36078432⟩,
    ⟨2.9411764, 1, 0.6⟩,
    (2, 0.05, 0.05), (2, 0.05, 0.05)⟩,
  ⟨"Tenno".toList,
    ⟨197.3196, 0.84347826, 0.22549021⟩,
    ⟨159.61165, 0.8956522, 0.22549021⟩,
    (2, 0.16, 0.16), (2, 0.16, 0.16)⟩,
  ⟨"Vitruvian".toList,
    ⟨45.681816, 0.40366971, 0.57254905⟩,
    ⟨45.000004, 0.78260887, 0.81960785⟩,
    (4, 0.16, 0.08), (8, 0.28, 0.1)⟩,
  ⟨"ZephyrHarrier".toList,
    ⟨31.075699, 0.9843139, 0.50000006⟩,
    ⟨12.47059, 1, 0.5⟩,
    (4, 0.05, 0.05), (2, 0.05, 0.05)⟩]

/-- `theme::DEFAULT_THEMES` (the `Themes` newtype derefs to the slice). -/
def DEFAULT_THEMES : List Theme := DEFAULT_THEMES_SLICE

/-- The default theme at a given index (`Deadlock = 4`, `Conquera = 1`,
matching the `DefaultThemes` enum discriminants). -/
def themeAt (i : ℕ) : Theme :=
  DEFAULT_THEMES_SLICE.getD i ⟨[], ⟨0, 0, 0⟩, ⟨0, 0, 0⟩, (0, 0, 0), (0, 0, 0)⟩

/-- `ocr::reward_image_to_reward_names`, with everything downstream of
theme detection (crop, Lanczos resize, the external OCR engine) abstracted
as the oracle `extractOcr`, since Lanczos resampling and OCR are external
numeric code; the claims about this function concern only the `get_scale`
gate and the stage order ahead of the oracle.  Outer `Option` is a panic
propagated from `detect_theme`. -/
def reward_image_to_reward_names
    (extractOcr : Image → Theme → ℚ → Except Error (List Str)) (image : Image)
    (themes : Option (List Theme)) (theme : Option Theme) :
    Option (Except Error (List Str × Theme)) :=
  let themes := themes.getD DEFAULT_THEMES
  match get_scale image with
  | Except.error e => some (Except.error e)
  | Except.ok scale =>
    match (match theme with
           | some t => some (some t)
           | none => detect_theme themes image scale) with
    | none => none
    | some none => some (Except.error Error.unknownTheme)
    | some (some theme) =>
      match extractOcr image theme scale with
      | Except.error e => some (Except.error e)
      | Except.ok text => some (Except.ok (text, theme))

/-- A uniformly filled image. -/
def uniformImage (width height : ℕ) (color : Rgb) : Image :=
  ⟨width, height, fun _ _ => color⟩

/-! ## Proof development -/

theorem levFuel_self (fuel : Nat) (as : Str) (h : as.length + as.length ≤ fuel) :
    levFuel fuel as as = 0 := by
  induction fuel generalizing as with
  | zero =>
    cases as with
    | nil => rfl
    | cons a as => simp at h
  | succ n ih =>
    cases as with
    | nil => rfl
    | cons a as =>
      simp only [levFuel, if_pos rfl]
      exact ih as (by simp at h; omega)

theorem levFuel_eq_zero_iff (fuel : Nat) (as bs : Str)
    (h : as.length + bs.length ≤ fuel) : levFuel fuel as bs = 0 ↔ as = bs := by
  induction fuel generalizing as bs with
  | zero =>
    cases as with
    | nil =>
      cases bs with
      | nil => simp [levFuel]
      | cons b bs => simp at h
    | cons a as => simp at h
  | succ n ih =>
    cases as with
    | nil =>
      cases bs with
      | nil => simp [levFuel]
      | cons b bs => simp [levFuel]
    | cons a as =>
      cases bs with
      | nil => simp [levFuel]
      | cons b bs =>
        simp only [levFuel]
        by_cases hab : a = b
        · rw [if_pos hab]
          rw [ih as bs (by simp at h; omega)]
          subst hab
          simp
        · rw [if_neg hab]
          constructor
          · intro hc; omega
          · intro hc
            exact absurd (List.cons.injEq .. ▸ hc).1 hab

theorem levenshtein_self (as : Str) : levenshtein as as = 0 :=
  levFuel_self _ as le_rfl

theorem levenshtein_eq_zero_iff (as bs : Str) : levenshtein as bs = 0 ↔ as = bs :=
  levFuel_eq_zero_iff _ as bs le_rfl

theorem levFuel_substitution (fuel : Nat) (xs ys : Str) (a b : Char) (hab : a ≠ b)
    (h : (xs ++ a :: ys).length + (xs ++ b :: ys).length ≤ fuel) :
    levFuel fuel (xs ++ a :: ys) (xs ++ b :: ys) = 1 := by
  induction fuel generalizing xs with
  | zero => simp at h
  | succ n ih =>
    cases xs with
    | nil =>
      simp only [List.nil_append, levFuel, if_neg hab]
      have h0 : levFuel n ys ys = 0 := levFuel_self n ys (by simp at h; omega)
      simp [min3, h0]
    | cons x xs =>
      simp only [List.cons_append, levFuel, if_pos rfl]
      exact ih xs (by simp at h; simp; omega)

/-- One substituted character is edit distance exactly 1. -/
theorem levenshtein_substitution (xs ys : Str) (a b : Char) (hab : a ≠ b) :
    levenshtein (xs ++ a :: ys) (xs ++ b :: ys) = 1 :=
  levFuel_substitution _ xs ys a b hab le_rfl

/-! ### Lemmas about the fuzzy matcher -/

theorem prefixFree_symm :
    Symmetric fun a b : Item => ¬a.tokens <+: b.tokens ∧ ¬b.tokens <+: a.tokens :=
  fun _ _ h => ⟨h.2, h.1⟩

theorem foldl_min_init_le {l : List Nat} (a : Nat) : l.foldl min a ≤ a := by
  induction l generalizing a with
  | nil => exact le_rfl
  | cons b l ih => exact le_trans (ih (min a b)) (min_le_left _ _)

theorem foldl_min_le {l : List Nat} {a x : Nat} (hx : x ∈ a :: l) : l.foldl min a ≤ x := by
  induction l generalizing a with
  | nil =>
    rw [List.mem_singleton] at hx
    exact hx ▸ le_rfl
  | cons b l ih =>
    simp only [List.foldl_cons]
    rcases List.mem_cons.mp hx with h | h
    · subst h
      exact le_trans (foldl_min_init_le _) (min_le_left _ _)
    · rcases List.mem_cons.mp h with h' | h'
      · subst h'
        exact le_trans (foldl_min_init_le _) (min_le_right _ _)
      · exact ih (List.mem_cons_of_mem _ h')

theorem le_foldl_max_init {l : List Nat} (a : Nat) : a ≤ l.foldl max a := by
  induction l generalizing a with
  | nil => exact le_rfl
  | cons b l ih => exact le_trans (le_max_left _ _) (ih (max a b))

theorem le_foldl_max {l : List Nat} {a x : Nat} (hx : x ∈ a :: l) : x ≤ l.foldl max a := by
  induction l generalizing a with
  | nil =>
    rw [List.mem_singleton] at hx
    exact hx ▸ le_rfl
  | cons b l ih =>
    simp only [List.foldl_cons]
    rcases List.mem_cons.mp hx with h | h
    · subst h
      exact le_trans (le_max_left _ _) (le_foldl_max_init _)
    · rcases List.mem_cons.mp h with h' | h'
      · subst h'
        exact le_trans (le_max_right _ _) (le_foldl_max_init _)
      · exact ih (List.mem_cons_of_mem _ h')

theorem min?_getD_zero_le {l : List Nat} {x : Nat} (hx : x ∈ l) : l.min?.getD 0 ≤ x := by
  cases l with
  | nil => cases hx
  | cons a l =>
    simp only [List.min?_cons', Option.getD_some]
    exact foldl_min_le hx

theorem le_max?_getD_zero {l : List Nat} {x : Nat} (hx : x ∈ l) : x ≤ l.max?.getD 0 := by
  cases l with
  | nil => cases hx
  | cons a l =>
    simp only [List.max?_cons', Option.getD_some]
    exact le_foldl_max hx

theorem minPairFold_mem (p : Item × Nat) (l : List (Item × Nat)) :
    l.foldl (fun m q => if q.2 < m.2 then q else m) p ∈ p :: l := by
  induction l generalizing p with
  | nil => simp
  | cons q l ih =>
    simp only [List.foldl_cons]
    by_cases h : q.2 < p.2
    · rw [if_pos h]
      have := ih q
      simp only [List.mem_cons] at this ⊢
      tauto
    · rw [if_neg h]
      have := ih p
      simp only [List.mem_cons] at this ⊢
      tauto

theorem minPairFold_le (p : Item × Nat) (l : List (Item × Nat)) :
    (l.foldl (fun m q => if q.2 < m.2 then q else m) p).2 ≤ p.2 ∧
      ∀ q ∈ l, (l.foldl (fun m q => if q.2 < m.2 then q else m) p).2 ≤ q.2 := by
  induction l generalizing p with
  | nil => simp
  | cons q l ih =>
    simp only [List.foldl_cons]
    by_cases h : q.2 < p.2
    · rw [if_pos h]
      refine ⟨le_trans (ih q).1 (le_of_lt h), ?_⟩
      intro r hr
      rcases List.mem_cons.mp hr with h' | h'
      · exact h' ▸ (ih q).1
      · exact (ih q).2 r h'
    · rw [if_neg h]
      refine ⟨(ih p).1, ?_⟩
      intro r hr
      rcases List.mem_cons.mp hr with h' | h'
      · exact h' ▸ le_trans (ih p).1 (Nat.le_of_not_lt h)
      · exact (ih p).2 r h'

theorem minByScore_mem {l : List (Item × Nat)} {p : Item × Nat}
    (h : minByScore l = some p) : p ∈ l := by
  cases l with
  | nil => cases h
  | cons q l =>
    simp only [minByScore, Option.some.injEq] at h
    exact h ▸ minPairFold_mem q l

theorem minByScore_le {l : List (Item × Nat)} {p : Item × Nat}
    (h : minByScore l = some p) : ∀ q ∈ l, p.2 ≤ q.2 := by
  cases l with
  | nil => cases h
  | cons q l =>
    simp only [minByScore, Option.some.injEq] at h
    intro r hr
    rcases List.mem_cons.mp hr with h' | h'
    · exact h ▸ h' ▸ (minPairFold_le q l).1
    · exact h ▸ (minPairFold_le q l).2 r h'

theorem filter_tokens_prefix_free {items : List Item} {e : Item} (he : e ∈ items)
    (hfree : PrefixFree items) :
    items.filter (fun c => decide (e.tokens <+: c.tokens)) = [e] := by
  induction items with
  | nil => cases he
  | cons c cs ih =>
    rw [PrefixFree, List.pairwise_cons] at hfree
    by_cases hec : e = c
    · subst hec
      rw [List.filter_cons_of_pos (by simp)]
      have : cs.filter (fun c => decide (e.tokens <+: c.tokens)) = [] := by
        rw [List.filter_eq_nil_iff]
        intro d hd
        simpa using (hfree.1 d hd).1
      rw [this]
    · have he' : e ∈ cs := by
        rcases List.mem_cons.mp he with h | h
        · exact absurd h hec
        · exact h
      have hc : ¬e.tokens <+: c.tokens := (hfree.1 e he').2
      rw [List.filter_cons_of_neg (by simpa using hc)]
      exact ih he' hfree.2

theorem mem_filter_take_lt_length {items : List Item} {e : Item} (he : e ∈ items)
    (hfree : PrefixFree items) {j : Nat} (hj : j < e.tokens.length) {c : Item}
    (hc : c ∈ items.filter fun c => decide (e.tokens.take j <+: c.tokens)) :
    j < c.tokens.length := by
  obtain ⟨hcmem, hcp⟩ := List.mem_filter.mp hc
  rw [decide_eq_true_eq] at hcp
  by_contra hlen
  push_neg at hlen
  have hlen2 : (e.tokens.take j).length ≤ c.tokens.length := hcp.length_le
  rw [List.length_take] at hlen2
  have hlenj : c.tokens.length = j := by omega
  have heq : e.tokens.take j = c.tokens :=
    hcp.eq_of_length (by rw [List.length_take]; omega)
  have hpre : c.tokens <+: e.tokens := heq ▸ List.take_prefix j e.tokens
  have hne : c ≠ e := by
    intro h
    rw [h] at hlenj
    omega
  exact (List.Pairwise.forall prefixFree_symm hfree hcmem he hne).1 hpre

theorem findStep_exact {items : List Item} {e : Item} (he : e ∈ items)
    (hfree : PrefixFree items) {j : Nat} (hj : j < e.tokens.length) :
    findStep (items.filter fun c => decide (e.tokens.take j <+: c.tokens)) j
        (e.tokens.getD j []) =
      some (items.filter fun c => decide (e.tokens.take (j + 1) <+: c.tokens)) := by
  set tok := e.tokens.getD j [] with htokdef
  set cur := items.filter fun c => decide (e.tokens.take j <+: c.tokens) with hcurdef
  have hecur : e ∈ cur := by
    rw [hcurdef]
    exact List.mem_filter.mpr ⟨he, by simpa using List.take_prefix j e.tokens⟩
  have hall : ∀ c ∈ cur, j < c.tokens.length := fun c hc =>
    mem_filter_take_lt_length he hfree hj (hcurdef ▸ hc)
  have hfilter1 : (cur.filter fun item => decide (j < item.tokens.length)) = cur :=
    List.filter_eq_self.mpr fun c hc => by simpa using hall c hc
  have hep : (e, 0) ∈
      ((cur.map fun item => (item, levenshtein (item.tokens.getD j []) tok)).filter fun p =>
        decide ((p.1.tokens.getD j []).length / 3 ≥ p.2)) := by
    apply List.mem_filter.mpr
    refine ⟨List.mem_map.mpr ⟨e, hecur, ?_⟩, by simp⟩
    rw [← htokdef, levenshtein_self]
  obtain ⟨w, hw⟩ : ∃ w, minByScore
      (((cur.filter fun item => decide (j < item.tokens.length)).map fun item =>
          (item, levenshtein (item.tokens.getD j []) tok)).filter fun p =>
        decide ((p.1.tokens.getD j []).length / 3 ≥ p.2)) = some w := by
    rw [hfilter1]
    cases hp2 : ((cur.map fun item => (item, levenshtein (item.tokens.getD j []) tok)).filter
        fun p => decide ((p.1.tokens.getD j []).length / 3 ≥ p.2)) with
    | nil => rw [hp2] at hep; cases hep
    | cons q l => exact ⟨_, rfl⟩
  have hbest : bestMatchAt cur j tok = some w := hw
  have hw2 : w.2 = 0 := by
    have := minByScore_le hw (e, 0) (by rw [hfilter1]; exact hep)
    omega
  obtain ⟨c, hccur, hwc⟩ :
      ∃ c, c ∈ cur ∧ (c, levenshtein (c.tokens.getD j []) tok) = w := by
    have := (List.mem_filter.mp (minByScore_mem hw)).1
    rw [hfilter1] at this
    exact List.mem_map.mp this
  have hwtok : w.1.tokens.getD j [] = tok := by
    have hlev : levenshtein (c.tokens.getD j []) tok = 0 := by
      have : (c, levenshtein (c.tokens.getD j []) tok).2 = 0 := by rw [hwc, hw2]
      exact this
    have hc1 : w.1 = c := by rw [← hwc]
    rw [hc1]
    exact (levenshtein_eq_zero_iff _ _).mp hlev
  have hallb : cur.all (fun item => decide (j < item.tokens.length)) = true :=
    List.all_eq_true.mpr fun c hc => by simpa using hall c hc
  obtain ⟨w1, w2⟩ := w
  simp only at hwtok
  rw [findStep, hbest]
  simp only [hallb, if_true]
  congr 1
  rw [hwtok, hcurdef, List.filter_filter]
  apply List.filter_congr
  intro a ha
  have hiff : ((a.tokens.getD j [] == tok) ∧ e.tokens.take j <+: a.tokens) ↔
      e.tokens.take (j + 1) <+: a.tokens := by
    constructor
    · rintro ⟨hq, hp⟩
      rw [beq_iff_eq] at hq
      have hacur : a ∈ cur := by
        rw [hcurdef]
        exact List.mem_filter.mpr ⟨ha, by simpa using hp⟩
      have hja : j < a.tokens.length := hall a hacur
      have htake_e : e.tokens.take (j + 1) = e.tokens.take j ++ [tok] := by
        rw [List.take_succ, List.getElem?_eq_getElem hj]
        simp [htokdef, List.getD_eq_getElem?_getD, List.getElem?_eq_getElem hj]
      have htake_a : a.tokens.take (j + 1) = a.tokens.take j ++ [tok] := by
        rw [List.take_succ, List.getElem?_eq_getElem hja]
        rw [← hq]
        simp [List.getD_eq_getElem?_getD, List.getElem?_eq_getElem hja]
      have htj : e.tokens.take j = a.tokens.take j := by
        have := List.prefix_iff_eq_take.mp hp
        rwa [List.length_take, Nat.min_eq_left (le_of_lt hj)] at this
      rw [List.prefix_iff_eq_take, htake_e, htj]
      have hlen : (a.tokens.take j ++ [tok]).length = j + 1 := by
        simp [List.length_take, Nat.min_eq_left (le_of_lt hja)]
      rw [hlen, htake_a]
    · intro hp
      have hpj : e.tokens.take j <+: a.tokens := by
        have h1 : e.tokens.take j <+: e.tokens.take (j + 1) := by
          have := List.take_prefix j (e.tokens.take (j + 1))
          rwa [List.take_take, Nat.min_eq_left (Nat.le_succ j)] at this
        exact h1.trans hp
      have hacur : a ∈ cur := by
        rw [hcurdef]
        exact List.mem_filter.mpr ⟨ha, by simpa using hpj⟩
      have hja : j < a.tokens.length := hall a hacur
      refine ⟨?_, hpj⟩
      rw [beq_iff_eq]
      have heqtake : e.tokens.take (j + 1) = a.tokens.take (j + 1) := by
        have := List.prefix_iff_eq_take.mp hp
        rwa [List.length_take, Nat.min_eq_left hj] at this
      have h3 : (e.tokens.take (j + 1)).getD j [] = (a.tokens.take (j + 1)).getD j [] :=
        congrArg (fun l => l.getD j []) heqtake
      rw [List.getD_eq_getElem?_getD, List.getD_eq_getElem?_getD,
        List.getElem?_take_of_succ, List.getElem?_take_of_succ] at h3
      rw [List.getD_eq_getElem?_getD, htokdef, List.getD_eq_getElem?_getD]
      exact h3.symm
  rw [Bool.eq_iff_iff, Bool.and_eq_true, decide_eq_true_eq, decide_eq_true_eq]
  exact hiff

theorem findLoop_exact {items : List Item} {e : Item} (he : e ∈ items)
    (hfree : PrefixFree items) :
    ∀ (rest : List Str) (j : Nat), e.tokens.drop j = rest →
      findLoop (items.filter fun c => decide (e.tokens.take j <+: c.tokens)) j rest
        = some [e] := by
  intro rest
  induction rest with
  | nil =>
    intro j hdrop
    have hlen : e.tokens.length ≤ j := List.drop_eq_nil_iff.mp hdrop
    rw [List.take_of_length_le hlen, findLoop]
    rw [filter_tokens_prefix_free he hfree]
  | cons tok rest ih =>
    intro j hdrop
    have hj : j < e.tokens.length := by
      by_contra hc
      push_neg at hc
      rw [List.drop_eq_nil_iff.mpr hc] at hdrop
      cases hdrop
    have hcons : e.tokens.drop j = e.tokens[j] :: e.tokens.drop (j + 1) :=
      List.drop_eq_getElem_cons hj
    rw [hcons] at hdrop
    have htok : e.tokens[j] = tok := (List.cons.injEq .. ▸ hdrop).1
    have hrest : e.tokens.drop (j + 1) = rest := (List.cons.injEq .. ▸ hdrop).2
    have hgetD : e.tokens.getD j [] = tok := by
      simp [List.getD_eq_getElem?_getD, List.getElem?_eq_getElem hj, htok]
    rw [findLoop, ← hgetD, findStep_exact he hfree hj]
    exact ih (j + 1) hrest

theorem mem_new_tokens {price_items : List PriceItem} {filtered_items : FilteredItems}
    {it : Item} (h : it ∈ (Items.new price_items filtered_items).items) :
    it.tokens = splitAsciiWhitespace it.name := by
  by_cases hp : price_items.isEmpty
  · rw [Items.new, if_pos hp] at h
    cases h
  · rw [Items.new, if_neg hp] at h
    simp only [List.mem_append, List.mem_map] at h
    rcases h with ⟨p, _, rfl⟩ | ⟨p, _, rfl⟩ <;> rfl

theorem new_min_len_le {price_items : List PriceItem} {filtered_items : FilteredItems}
    {it : Item} (h : it ∈ (Items.new price_items filtered_items).items) :
    (Items.new price_items filtered_items).min_len ≤ it.name.length := by
  by_cases hp : price_items.isEmpty
  · rw [Items.new, if_pos hp] at h
    cases h
  · rw [Items.new, if_neg hp] at h ⊢
    exact min?_getD_zero_le (List.mem_map_of_mem _ h)

theorem new_le_max_len {price_items : List PriceItem} {filtered_items : FilteredItems}
    {it : Item} (h : it ∈ (Items.new price_items filtered_items).items) :
    it.name.length ≤ (Items.new price_items filtered_items).max_len := by
  by_cases hp : price_items.isEmpty
  · rw [Items.new, if_pos hp] at h
    cases h
  · rw [Items.new, if_neg hp] at h ⊢
    exact le_max?_getD_zero (List.mem_map_of_mem _ h)

theorem find_item_exact {price_items : List PriceItem} {filtered_items : FilteredItems}
    {e : Item} (he : e ∈ (Items.new price_items filtered_items).items)
    (hfree : PrefixFree (Items.new price_items filtered_items).items)
    (htrim : trimStr e.name = e.name) :
    (Items.new price_items filtered_items).find_item e.name = some (some e) := by
  have htoks := mem_new_tokens he
  have hmin := new_min_len_le he
  have hmax := new_le_max_len he
  simp only [Items.find_item, htrim]
  have hguard : (!(decide ((Items.new price_items filtered_items).min_len ≤ e.name.length) &&
      decide (e.name.length ≤ (Items.new price_items filtered_items).max_len))) = false := by
    simp [hmin, hmax]
  rw [hguard]
  simp only [Bool.false_eq_true, if_false]
  have hstart : ((Items.new price_items filtered_items).items.filter
      fun c => decide (e.tokens.take 0 <+: c.tokens)) =
      (Items.new price_items filtered_items).items :=
    List.filter_eq_self.mpr fun c _ => by simp
  have hloop := findLoop_exact he hfree e.tokens 0 (by simp)
  rw [hstart] at hloop
  rw [← htoks, hloop]
  rfl

/-- A candidate whose `i`-th token fails the per-token distance filter can
never be the selected best match at token index `i`. -/
theorem bestMatchAt_rejects {current : List Item} {i : Nat} {token : Str} {it : Item}
    (h : ¬(it.tokens.getD i []).length / 3 ≥ levenshtein (it.tokens.getD i []) token) :
    ∀ s, bestMatchAt current i token ≠ some (it, s) := by
  intro s hbad
  have hmem := minByScore_mem hbad
  obtain ⟨hin, hpass⟩ := List.mem_filter.mp hmem
  obtain ⟨c, _, hc⟩ := List.mem_map.mp hin
  have hcit : c = it := congrArg Prod.fst hc
  have hs : levenshtein (c.tokens.getD i []) token = s := congrArg Prod.snd hc
  rw [decide_eq_true_eq] at hpass
  subst hcit
  exact h (hs ▸ hpass)

/-- C1 (amended): for every catalog built by `Items::new` whose entries
have pairwise prefix-free token sequences and trimmed names, `find_item`
applied to an entry's exact name returns that very entry (in particular an
entry with the same name).  The unamended exact-match law fails: when one
entry's token sequence is a prefix of another's, `find_item` can return
the other entry (see the counterexample) or panic. -/
theorem find_item_exact_match {price_items : List PriceItem}
    {filtered_items : FilteredItems} {e : Item}
    (he : e ∈ (Items.new price_items filtered_items).items)
    (hfree : PrefixFree (Items.new price_items filtered_items).items)
    (htrim : trimStr e.name = e.name) :
    (Items.new price_items filtered_items).find_item e.name = some (some e) :=
  find_item_exact he hfree htrim

/-- C1 witness: on the catalog with the single entry `"Ash Prime"`, the
exact-match law holds and returns that entry. -/
theorem find_item_exact_match_witness :
    (Items.new pricesZ fiSingle).find_item "Ash Prime".toList =
      some (some (Item.new "Ash Prime".toList (priceLookup pricesZ "Ash Prime".toList)
        (some 0) false false)) :=
  @find_item_exact_match pricesZ fiSingle
    (Item.new "Ash Prime".toList (priceLookup pricesZ "Ash Prime".toList) (some 0) false false)
    (by decide) (by decide) (by decide)

/-- C1 counterexample: in the catalog holding `"Ash Prime"` before
`"Ash"`, both entries tie at distance 0 on the single input token `"Ash"`,
the filter keeps both, and the first remaining candidate is returned:
`find_item "Ash"` yields the entry named `"Ash Prime"`, not `"Ash"`. -/
theorem find_item_exact_match_counterexample :
    ((Items.new pricesZ fiAsh).find_item "Ash".toList).map (Option.map Item.name) =
        some (some "Ash Prime".toList) ∧
      Item.new "Ash".toList (priceLookup pricesZ "Ash".toList) (some 0) false false ∈
        (Items.new pricesZ fiAsh).items ∧
      "Ash Prime".toList ≠ "Ash".toList := by
  refine ⟨by decide, by decide, by decide⟩

/-- C7: the pruning step is not total.  On the catalog holding `"Ash
Prime"` and `"Ash"`, input `"Ash Prime"` selects the winning token
`"Prime"` at index 1 while the one-token entry `"Ash"` is still alive;
the source's `retain` closure then evaluates `item.tokens[1]` on it and
panics with an out-of-bounds index (modelled as `none`). -/
theorem find_item_retain_panic :
    (Items.new pricesZ fiAsh).find_item "Ash Prime".toList = none := by decide

/-- C8: for every catalog and every input whose trimmed length is strictly
below `min_len` or strictly above `max_len`, `find_item` returns `None`
immediately. -/
theorem find_item_length_gate (self : Items) (input : Str)
    (h : (trimStr input).length < self.min_len ∨ self.max_len < (trimStr input).length) :
    self.find_item input = some none := by
  simp only [Items.find_item]
  have hc : (!(decide (self.min_len ≤ (trimStr input).length) &&
      decide ((trimStr input).length ≤ self.max_len))) = true := by
    rcases h with h | h
    · simp [Nat.not_le.mpr h]
    · simp [Nat.not_le.mpr h]
  rw [hc]
  rw [if_pos rfl]

/-- C8 witness: the empty input is shorter than `min_len = 1` and is
rejected. -/
theorem find_item_length_gate_witness : (Items.mk [] 1 2).find_item [] = some none :=
  find_item_length_gate ⟨[], 1, 2⟩ [] (Or.inl (by decide))

theorem rewardLoop_bails {items : Items} {text : List Str}
    (hsafe : ∀ t ∈ text, items.find_item t ≠ none)
    (hmiss : ∃ t ∈ text, items.find_item t = some none) :
    rewardLoop items text = some none := by
  induction text with
  | nil =>
    obtain ⟨t, ht, _⟩ := hmiss
    cases ht
  | cons t ts ih =>
    cases hf : items.find_item t with
    | none => exact absurd hf (hsafe t (List.mem_cons_self t ts))
    | some o =>
      cases o with
      | none => simp only [rewardLoop, hf]
      | some it =>
        have hmiss' : ∃ x ∈ ts, items.find_item x = some none := by
          obtain ⟨x, hx, hxm⟩ := hmiss
          rcases List.mem_cons.mp hx with rfl | hx'
          · rw [hf] at hxm
            cases hxm
          · exact ⟨x, hx', hxm⟩
        have := ih (fun x hx => hsafe x (List.mem_cons_of_mem _ hx)) hmiss'
        simp only [rewardLoop, hf, this]

theorem rewardLoop_complete {items : Items} {text : List Str}
    (hall : ∀ t ∈ text, ∃ it, items.find_item t = some (some it)) :
    ∃ out, rewardLoop items text = some (some out) ∧ out.length = text.length := by
  induction text with
  | nil => exact ⟨[], rfl, rfl⟩
  | cons t ts ih =>
    obtain ⟨it, hf⟩ := hall t (List.mem_cons_self t ts)
    obtain ⟨out, hout, hlen⟩ := ih fun x hx => hall x (List.mem_cons_of_mem _ hx)
    exact ⟨it :: out, by simp only [rewardLoop, hf, hout], by simp [hlen]⟩

/-- C2 (amended): the pipeline never turns a fuzzy-match miss into an
error, but it produces no per-slot marker either: provided no `find_item`
call panics, a miss on *any* slot makes the whole invocation return
`Ok` with the *empty* item list, discarding every other slot's result;
only when every slot resolves does the output hold one entry per slot. -/
theorem reward_texts_all_or_nothing (items : Items) (text : List Str)
    (hsafe : ∀ t ∈ text, items.find_item t ≠ none) :
    ((∃ t ∈ text, items.find_item t = some none) →
        reward_texts_to_items items text = some []) ∧
      ((∀ t ∈ text, ∃ it, items.find_item t = some (some it)) →
        ∃ out, reward_texts_to_items items text = some out ∧
          out.length = text.length) := by
  constructor
  · intro hmiss
    rw [reward_texts_to_items, rewardLoop_bails hsafe hmiss]
  · intro hall
    obtain ⟨out, hout, hlen⟩ := rewardLoop_complete hall
    exact ⟨out, by rw [reward_texts_to_items, hout], hlen⟩

/-- C2 witness: with the single-entry catalog and slots `["Ash Prime",
"Qqq"]`, the second slot misses, so the pipeline returns the empty list. -/
theorem reward_texts_all_or_nothing_witness :
    reward_texts_to_items (Items.new pricesZ fiSingle)
      ["Ash Prime".toList, "Qqq".toList] = some [] :=
  (reward_texts_all_or_nothing (Items.new pricesZ fiSingle)
      ["Ash Prime".toList, "Qqq".toList] (by decide)).1
    ⟨"Qqq".toList, by decide, by decide⟩

/-- C2 counterexample: two detected slots, the first resolves to a catalog
entry and the second misses, yet the output holds zero entries — not one
entry-or-marker per slot, and the resolved first slot is discarded. -/
theorem reward_texts_per_slot_counterexample :
    (Items.new pricesZ fiSingle).find_item "Ash Prime".toList =
        some (some (Item.new "Ash Prime".toList (priceLookup pricesZ "Ash Prime".toList)
          (some 0) false false)) ∧
      (Items.new pricesZ fiSingle).find_item "Qqq".toList = some none ∧
      reward_texts_to_items (Items.new pricesZ fiSingle)
        ["Ash Prime".toList, "Qqq".toList] = some [] := by
  refine ⟨by decide, by decide, by decide⟩

/-- C6 (amended): for every *non-empty* price list, every equipment part
appears in the built catalog, with `platinum` the `custom_avg` of the
first price entry that does not end in `"Set"` and whose name — after
replacing `"Reciever"` by `"Receiver"` — starts with the part name (case
sensitively), and `platinum = none` when no price entry matches.  The
unamended claim fails for an empty price list: `Items::new` then
short-circuits to the empty catalog (see the counterexample). -/
theorem items_new_merges_parts (price_items : List PriceItem)
    (filtered_items : FilteredItems) (hne : price_items ≠ []) (v : Bool) (n : Str)
    (d : DucatItem) (hp : (v, (n, d)) ∈ eqmtParts filtered_items) :
    Item.new n
        (((price_items.filter fun item => !endsWithStr item.name "Set".toList).find?
            fun item =>
          startsWithStr (replaceStr item.name "Reciever".toList "Receiver".toList) n).map
          fun item => item.custom_avg)
        (some d.ducats) false v ∈
      (Items.new price_items filtered_items).items := by
  rw [Items.new, if_neg (by simpa using hne)]
  simp only [List.mem_append]
  right
  exact List.mem_map.mpr ⟨(v, (n, d)), hp, rfl⟩

/-- C6 witness: the part `"Ash Prime"` of the fixture metadata appears in
the catalog built from the non-matching one-entry price list, with
`platinum = none`. -/
theorem items_new_merges_parts_witness :
    Item.new "Ash Prime".toList (priceLookup pricesZ "Ash Prime".toList) (some 0)
        false false ∈
      (Items.new pricesZ fiSingle).items :=
  items_new_merges_parts pricesZ fiSingle (by decide) false "Ash Prime".toList ⟨0⟩
    (by decide)

/-- C6 counterexample: with an empty price list and metadata containing
the part `"Ash Prime"`, the built catalog is empty — the part does not
appear with `platinum = none` as the claim requires. -/
theorem items_new_empty_prices_counterexample :
    (Items.new [] fiSingle).items = [] ∧ eqmtParts fiSingle ≠ [] := by
  refine ⟨by decide, by decide⟩

/-- C9: the matcher tolerates one substituted character in a token of
length at least 4 — the distance filter accepts it (`1 ≤ len / 3`) and,
for a catalog holding that entry, `find_item` still returns it — while for
an entry whose token has length 2 the substituted token's distance 1
exceeds `2 / 3 = 0`, so that entry is never selected as the best match
for that token, in any candidate list and at any token index. -/
theorem find_item_substitution_tolerance
    (xs₁ ys₁ : Str) (a₁ b₁ : Char) (hab₁ : a₁ ≠ b₁) (e₁ : Item)
    (htok₁ : e₁.tokens = [xs₁ ++ a₁ :: ys₁]) (hlen₁ : 4 ≤ (xs₁ ++ a₁ :: ys₁).length)
    (m₁ M₁ : Nat) (hm₁ : m₁ ≤ (xs₁ ++ b₁ :: ys₁).length)
    (hM₁ : (xs₁ ++ b₁ :: ys₁).length ≤ M₁)
    (htr₁ : trimStr (xs₁ ++ b₁ :: ys₁) = xs₁ ++ b₁ :: ys₁)
    (hsp₁ : splitAsciiWhitespace (xs₁ ++ b₁ :: ys₁) = [xs₁ ++ b₁ :: ys₁])
    (xs₂ ys₂ : Str) (a₂ b₂ : Char) (hab₂ : a₂ ≠ b₂) (e₂ : Item)
    (htok₂ : e₂.tokens = [xs₂ ++ a₂ :: ys₂]) (hlen₂ : (xs₂ ++ a₂ :: ys₂).length = 2) :
    (Items.mk [e₁] m₁ M₁).find_item (xs₁ ++ b₁ :: ys₁) = some (some e₁) ∧
      (xs₂ ++ a₂ :: ys₂).length / 3 <
        levenshtein (xs₂ ++ a₂ :: ys₂) (xs₂ ++ b₂ :: ys₂) ∧
      ∀ (current : List Item) (i s : Nat),
        bestMatchAt current i (xs₂ ++ b₂ :: ys₂) ≠ some (e₂, s) := by
  refine ⟨?_, ?_, ?_⟩
  · have hget : e₁.tokens.getD 0 [] = xs₁ ++ a₁ :: ys₁ := by rw [htok₁]; rfl
    have hlev : levenshtein (xs₁ ++ a₁ :: ys₁) (xs₁ ++ b₁ :: ys₁) = 1 :=
      levenshtein_substitution xs₁ ys₁ a₁ b₁ hab₁
    have hdiv : 1 ≤ (xs₁ ++ a₁ :: ys₁).length / 3 :=
      (Nat.one_le_div_iff (by norm_num)).mpr (le_trans (by norm_num) hlen₁)
    have hbest : bestMatchAt [e₁] 0 (xs₁ ++ b₁ :: ys₁) = some (e₁, 1) := by
      rw [bestMatchAt]
      have h1 : ([e₁].filter fun item => decide (0 < item.tokens.length)) = [e₁] := by
        simp [htok₁]
      rw [h1]
      have h2 : ([e₁].map fun item =>
          (item, levenshtein (item.tokens.getD 0 []) (xs₁ ++ b₁ :: ys₁))) = [(e₁, 1)] := by
        rw [List.map_cons, List.map_nil, hget, hlev]
      rw [h2]
      have h3 : ([(e₁, 1)].filter fun p =>
          decide ((p.1.tokens.getD 0 []).length / 3 ≥ p.2)) = [(e₁, 1)] := by
        simp only [List.filter_cons, List.filter_nil]
        rw [if_pos]
        rw [decide_eq_true_eq, hget]
        exact hdiv
      rw [h3]
      rfl
    have hall : ([e₁].all fun item => decide (0 < item.tokens.length)) = true := by
      simp [htok₁]
    have hstep : findStep [e₁] 0 (xs₁ ++ b₁ :: ys₁) = some [e₁] := by
      simp only [findStep, hbest, hall]
      simp
    simp only [Items.find_item, htr₁, hsp₁]
    have hand : (decide (m₁ ≤ (xs₁ ++ b₁ :: ys₁).length) &&
        decide ((xs₁ ++ b₁ :: ys₁).length ≤ M₁)) = true := by
      rw [Bool.and_eq_true, decide_eq_true_eq, decide_eq_true_eq]
      exact ⟨hm₁, hM₁⟩
    have hguard : (!(decide (m₁ ≤ (xs₁ ++ b₁ :: ys₁).length) &&
        decide ((xs₁ ++ b₁ :: ys₁).length ≤ M₁))) = false := by
      rw [hand]
      rfl
    rw [hguard]
    simp only [Bool.false_eq_true, if_false]
    simp only [findLoop, hstep]
    rfl
  · rw [levenshtein_substitution xs₂ ys₂ a₂ b₂ hab₂, hlen₂]
    norm_num
  · intro current i s
    apply bestMatchAt_rejects
    rw [htok₂]
    cases i with
    | zero =>
      show ¬(([xs₂ ++ a₂ :: ys₂].getD 0 []).length / 3 ≥ _)
      have hget : [xs₂ ++ a₂ :: ys₂].getD 0 [] = xs₂ ++ a₂ :: ys₂ := rfl
      rw [hget, hlen₂, levenshtein_substitution xs₂ ys₂ a₂ b₂ hab₂]
      norm_num
    | succ i =>
      have hget : [xs₂ ++ a₂ :: ys₂].getD (i + 1) [] = [] := by
        simp [List.getD_eq_getElem?_getD]
      rw [hget]
      have hlev : levenshtein [] (xs₂ ++ b₂ :: ys₂) = (xs₂ ++ b₂ :: ys₂).length := by
        rw [levenshtein]
        cases h : (List.length ([] : Str) + (xs₂ ++ b₂ :: ys₂).length) <;> rfl
      have hlen' : (xs₂ ++ b₂ :: ys₂).length = 2 := by
        simpa using hlen₂
      rw [hlev, hlen']
      norm_num

/-- C9 witness: `"abcd"` is still matched from the input `"xbcd"`, and the
two-character token `"ab"` is never the best match for the input token
`"xb"`. -/
theorem find_item_substitution_tolerance_witness :
    (Items.mk [Item.new "abcd".toList none none false false] 4 4).find_item
        "xbcd".toList =
        some (some (Item.new "abcd".toList none none false false)) ∧
      "ab".toList.length / 3 < levenshtein "ab".toList "xb".toList ∧
      bestMatchAt [Item.new "ab".toList none none false false] 0 "xb".toList ≠
        some (Item.new "ab".toList none none false false, 1) := by
  have h := find_item_substitution_tolerance [] "bcd".toList 'a' 'x' (by decide)
    (Item.new "abcd".toList none none false false) (by decide) (by decide) 4 4
    (by decide) (by decide) (by decide) (by decide)
    [] "b".toList 'a' 'x' (by decide)
    (Item.new "ab".toList none none false false) (by decide) (by decide)
  exact ⟨h.1, h.2.1, h.2.2 [Item.new "ab".toList none none false false] 0 1⟩

/-! ### Lemmas about theme detection and segmentation -/

theorem foldl_choice_mem {γ : Type} (g : γ → γ → γ)
    (hg : ∀ a b, g a b = a ∨ g a b = b) (l : List γ) (init : γ) :
    l.foldl g init ∈ init :: l := by
  induction l generalizing init with
  | nil => simp
  | cons q l ih =>
    simp only [List.foldl_cons]
    rcases hg init q with h | h
    · rw [h]
      have := ih init
      simp only [List.mem_cons] at this ⊢
      tauto
    · rw [h]
      have := ih q
      simp only [List.mem_cons] at this ⊢
      tauto

theorem closest_from_color_some {themes : List Theme} (hne : themes ≠ []) (color : Rgb) :
    ∃ p, closest_from_color themes color = some p ∧ p.1 ∈ themes := by
  cases themes with
  | nil => exact absurd rfl hne
  | cons a ts =>
    simp only [closest_from_color, List.map_cons]
    refine ⟨_, rfl, ?_⟩
    have hmem := foldl_choice_mem (fun m q => if q.2 < m.2 then q else m)
      (fun a b => by by_cases h : b.2 < a.2 <;> simp [h])
      (ts.map fun theme => (theme, color_difference (theme.primary, rgbToHsl color)))
      (a, color_difference (a.primary, rgbToHsl color))
    rcases List.mem_cons.mp hmem with h | h
    · rw [h]
      exact List.mem_cons_self a ts
    · obtain ⟨th, hth, hth2⟩ := List.mem_map.mp h
      rw [← hth2]
      exact List.mem_cons_of_mem _ hth

theorem closest_from_color_mem {themes : List Theme} {color : Rgb} {p : Theme × ℚ}
    (h : closest_from_color themes color = some p) : p.1 ∈ themes := by
  cases themes with
  | nil => cases h
  | cons a ts =>
    simp only [closest_from_color, List.map_cons, Option.some.injEq] at h
    have hmem := foldl_choice_mem (fun m q => if q.2 < m.2 then q else m)
      (fun a b => by by_cases hc : b.2 < a.2 <;> simp [hc])
      (ts.map fun theme => (theme, color_difference (theme.primary, rgbToHsl color)))
      (a, color_difference (a.primary, rgbToHsl color))
    rw [h] at hmem
    rcases List.mem_cons.mp hmem with h' | h'
    · rw [h']
      exact List.mem_cons_self a ts
    · obtain ⟨th, hth, hth2⟩ := List.mem_map.mp h'
      rw [← hth2]
      exact List.mem_cons_of_mem _ hth

theorem addWeight_ne_nil (ws : List (Str × ℚ)) (k : Str) (v : ℚ) :
    addWeight ws k v ≠ [] := by
  cases ws with
  | nil => simp [addWeight]
  | cons p rest =>
    simp only [addWeight]
    by_cases h : p.1 = k
    · cases p
      simp_all
    · cases p
      simp_all

theorem addWeight_mem_keys {ws : List (Str × ℚ)} {k : Str} {v : ℚ} :
    ∀ x ∈ addWeight ws k v, x.1 = k ∨ ∃ y ∈ ws, y.1 = x.1 := by
  induction ws with
  | nil =>
    intro x hx
    simp only [addWeight, List.mem_singleton] at hx
    exact Or.inl (by rw [hx])
  | cons p rest ih =>
    intro x hx
    obtain ⟨k', v'⟩ := p
    simp only [addWeight] at hx
    by_cases h : k' = k
    · rw [if_pos h] at hx
      rcases List.mem_cons.mp hx with h' | h'
      · exact Or.inr ⟨(k', v'), List.mem_cons_self _ _, by rw [h']⟩
      · exact Or.inr ⟨x, List.mem_cons_of_mem _ h', rfl⟩
    · rw [if_neg h] at hx
      rcases List.mem_cons.mp hx with h' | h'
      · exact Or.inr ⟨(k', v'), List.mem_cons_self _ _, by rw [h']⟩
      · rcases ih x h' with h'' | ⟨y, hy, hy2⟩
        · exact Or.inl h''
        · exact Or.inr ⟨y, List.mem_cons_of_mem _ hy, hy2⟩

theorem maxBySnd_eq_none {ws : List (Str × ℚ)} : maxBySnd ws = none ↔ ws = [] := by
  cases ws <;> simp [maxBySnd]

theorem maxBySnd_mem {ws : List (Str × ℚ)} {r : Str × ℚ} (h : maxBySnd ws = some r) :
    r ∈ ws := by
  cases ws with
  | nil => cases h
  | cons p rest =>
    simp only [maxBySnd, Option.some.injEq] at h
    have := foldl_choice_mem (fun m q => if q.2 < m.2 then m else q)
      (fun a b => by by_cases hc : b.2 < a.2 <;> simp [hc]) rest p
    rw [h] at this
    exact this

theorem find?_name_of_key {themes : List Theme} {k : Str}
    (h : ∃ t ∈ themes, t.name = k) :
    ∃ t', themes.find? (fun th => th.name == k) = some t' := by
  cases hf : themes.find? (fun th => th.name == k) with
  | none =>
    obtain ⟨t, ht, htn⟩ := h
    have := List.find?_eq_none.mp hf t ht
    simp [htn] at this
  | some t' => exact ⟨t', rfl⟩

theorem voteFold_run {themes : List Theme} (image : Image) (hne : themes ≠ []) :
    ∀ (pts : List (ℕ × ℕ)) (ws : List (Str × ℚ)),
      (∀ x ∈ ws, ∃ t ∈ themes, t.name = x.1) →
      ∃ ws', List.foldl (voteFold themes image) (some ws) pts = some ws' ∧
        (∀ x ∈ ws', ∃ t ∈ themes, t.name = x.1) ∧
        (ws' = [] ↔ ws = [] ∧ pts = []) := by
  intro pts
  induction pts with
  | nil =>
    intro ws hkeys
    exact ⟨ws, rfl, hkeys, by simp⟩
  | cons p pts ih =>
    intro ws hkeys
    obtain ⟨⟨t, d⟩, hc, htm⟩ := closest_from_color_some hne (image.pix p.1 p.2)
    have hstep : voteFold themes image (some ws) p =
        some (addWeight ws t.name (1 / (1 + d) ^ 4)) := by
      simp only [voteFold, hc]
    have hkeys' : ∀ x ∈ addWeight ws t.name (1 / (1 + d) ^ 4),
        ∃ th ∈ themes, th.name = x.1 := by
      intro x hx
      rcases addWeight_mem_keys x hx with h | ⟨y, hy, hy2⟩
      · exact ⟨t, htm, h.symm⟩
      · obtain ⟨th, hth, hth2⟩ := hkeys y hy
        exact ⟨th, hth, by rw [hth2, hy2]⟩
    obtain ⟨ws', hrun, hk, hiff⟩ := ih (addWeight ws t.name (1 / (1 + d) ^ 4)) hkeys'
    refine ⟨ws', ?_, hk, ?_⟩
    · rw [List.foldl_cons, hstep, hrun]
    · rw [hiff]
      constructor
      · intro ⟨h1, _⟩
        exact absurd h1 (addWeight_ne_nil ws t.name _)
      · intro ⟨_, h2⟩
        cases h2

theorem voteFold_uniform {themes : List Theme} {image : Image} {t : Theme} {d : ℚ}
    (hc : ∀ x y : ℕ, closest_from_color themes (image.pix x y) = some (t, d)) :
    ∀ (pts : List (ℕ × ℕ)) (q : ℚ),
      ∃ q', List.foldl (voteFold themes image) (some [(t.name, q)]) pts =
        some [(t.name, q')] := by
  intro pts
  induction pts with
  | nil => exact fun q => ⟨q, rfl⟩
  | cons p pts ih =>
    intro q
    have hstep : voteFold themes image (some [(t.name, q)]) p =
        some [(t.name, q + 1 / (1 + d) ^ 4)] := by
      simp only [voteFold, hc p.1 p.2, addWeight]
      simp
    obtain ⟨q', hq'⟩ := ih (q + 1 / (1 + d) ^ 4)
    exact ⟨q', by rw [List.foldl_cons, hstep, hq']⟩

theorem find?_name_nodup {themes : List Theme} {t : Theme} (ht : t ∈ themes)
    (hnodup : (themes.map Theme.name).Nodup) :
    themes.find? (fun th => th.name == t.name) = some t := by
  induction themes with
  | nil => cases ht
  | cons a ts ih =>
    rw [List.map_cons, List.nodup_cons] at hnodup
    rcases List.mem_cons.mp ht with rfl | ht'
    · simp [List.find?_cons]
    · have hne : (a.name == t.name) = false := by
        rw [beq_eq_false_iff_ne]
        intro hcontra
        exact hnodup.1 (hcontra ▸ List.mem_map_of_mem Theme.name ht')
      rw [List.find?_cons, hne]
      exact ih ht' hnodup.2

theorem cleanPart_width (image : Image) : (cleanPart image).width = image.width := by
  rw [cleanPart]
  by_cases h : 0 < topHalfCount image ∧ topHalfCount image ≤ 300 <;> simp [h]

theorem cleanPart_height (image : Image) : (cleanPart image).height = image.height := by
  rw [cleanPart]
  by_cases h : 0 < topHalfCount image ∧ topHalfCount image ≤ 300 <;> simp [h]

/-- C3 (amended): for a non-empty catalog, `detect_theme` returns `None`
exactly when *no pixel is sampled at all* (empty scan region).  Every
sampled pixel votes for its nearest theme whatever the distance, so an
image whose pixels are far from every catalog theme still elects the
nearest theme rather than returning `None` (see the counterexample). -/
theorem detect_theme_none_iff (themes : List Theme) (image : Image) (scale : ℚ)
    (hne : themes ≠ []) :
    detect_theme themes image scale = some none ↔ samplePoints image scale = [] := by
  obtain ⟨ws', hrun, hkeys, hiff⟩ :=
    voteFold_run image hne (samplePoints image scale) [] (by simp)
  simp only [detect_theme]
  rw [hrun]
  constructor
  · intro h
    cases hmax : maxBySnd ws' with
    | none => exact (hiff.mp (maxBySnd_eq_none.mp hmax)).2
    | some r =>
      obtain ⟨t', hft⟩ := find?_name_of_key (hkeys r (maxBySnd_mem hmax))
      simp only [hmax, hft] at h
      simp at h
  · intro h
    have hws : ws' = [] := hiff.mpr ⟨rfl, h⟩
    rw [hws]
    rfl

/-- C3 witness: an image of height 0 has an empty scan region, and
`detect_theme` returns `None` on it. -/
theorem detect_theme_none_iff_witness :
    detect_theme DEFAULT_THEMES (uniformImage 5 0 ⟨0, 0, 0⟩) 1 = some none :=
  (detect_theme_none_iff DEFAULT_THEMES (uniformImage 5 0 ⟨0, 0, 0⟩) 1
    (by decide)).mpr (by decide)

set_option maxRecDepth 400000 in
/-- C3 counterexample: a uniformly black image has no pixel inside any
default theme's primary acceptance box (black is far from every theme),
yet `detect_theme` returns the nearest theme, Orokin — not `None`. -/
theorem detect_theme_far_counterexample :
    (DEFAULT_THEMES.all fun t => !t.threshold_filter ⟨0, 0, 0⟩) = true ∧
      (detect_theme DEFAULT_THEMES (uniformImage 10 2 ⟨0, 0, 0⟩) (1 / 96)).map
          (fun o => o.map Theme.name) =
        some (some "Orokin".toList) := by
  refine ⟨by decide, by decide⟩

/-- C4 (amended): on a uniformly filled image with a non-empty sample set,
`detect_theme` returns exactly the theme `closest_from_color` elects for
the fill color — the *first* catalog theme at minimal RGB distance.  This
is the filled theme itself only when it is that first minimizer; a theme
sharing an earlier theme's primary color is never returned (see the
counterexample: Deadlock's exact primary fill yields Conquera). -/
theorem detect_theme_uniform (themes : List Theme) (width height : ℕ) (color : Rgb)
    (scale : ℚ) (hnodup : (themes.map Theme.name).Nodup)
    (hsp : samplePoints (uniformImage width height color) scale ≠ [])
    (t : Theme) (d : ℚ) (hclosest : closest_from_color themes color = some (t, d)) :
    detect_theme themes (uniformImage width height color) scale = some (some t) := by
  have ht : t ∈ themes := closest_from_color_mem hclosest
  have hcall : ∀ x y : ℕ,
      closest_from_color themes ((uniformImage width height color).pix x y) =
        some (t, d) :=
    fun _ _ => hclosest
  simp only [detect_theme]
  cases hpts : samplePoints (uniformImage width height color) scale with
  | nil => exact absurd hpts hsp
  | cons p pts =>
    have hstep : voteFold themes (uniformImage width height color) (some []) p =
        some [(t.name, 1 / (1 + d) ^ 4)] := by
      simp only [voteFold, hcall p.1 p.2, addWeight]
    obtain ⟨q', hq'⟩ := voteFold_uniform hcall pts (1 / (1 + d) ^ 4)
    rw [List.foldl_cons, hstep, hq']
    have hmax : maxBySnd [(t.name, q')] = some (t.name, q') := rfl
    simp only [hmax]
    simp only [find?_name_nodup ht hnodup]

set_option maxRecDepth 400000 in
/-- C4 witness: white is Conquera's exact primary; the uniformly white
image elects Conquera (the first theme at distance 0). -/
theorem detect_theme_uniform_witness :
    detect_theme DEFAULT_THEMES (uniformImage 10 2 ⟨255, 255, 255⟩) (1 / 96) =
      some (some (themeAt 1)) :=
  detect_theme_uniform DEFAULT_THEMES 10 2 ⟨255, 255, 255⟩ (1 / 96) (by decide)
    (by decide) (themeAt 1) 0 (by decide)

set_option maxRecDepth 400000 in
/-- C4 counterexample: Deadlock (index 4) has primary color white
(`hslToRgb` gives `(1,1,1)`, i.e. `#ffffff`), but the image uniformly
filled with that exact primary color elects Conquera (index 1), an
*earlier* theme with the same primary — not Deadlock. -/
theorem detect_theme_uniform_counterexample :
    (themeAt 4).name = "Deadlock".toList ∧
      hslToRgb (themeAt 4).primary = (1, 1, 1) ∧
      themeAt 4 ∈ DEFAULT_THEMES ∧
      (detect_theme DEFAULT_THEMES (uniformImage 10 2 ⟨255, 255, 255⟩) (1 / 96)).map
          (fun o => o.map Theme.name) =
        some (some "Conquera".toList) ∧
      "Conquera".toList ≠ "Deadlock".toList := by
  refine ⟨by decide, by decide, by decide, by decide, by decide⟩

/-- C5: for every strip, theme and column weighting, segmentation returns
the empty sequence exactly when both accumulated totals are zero;
otherwise it returns 3 boxes starting at offset `box_width / 2` when
`total_odd > total_even` and 4 boxes starting at offset 0 otherwise, each
of width `strip_width / 4` and full strip height. -/
theorem filter_and_separate_parts_spec (image : Image) (theme : Theme) (cosF : ℕ → ℚ) :
    (filter_and_separate_parts_from_part_box image theme cosF = [] ↔
      (theme.filterTotals image cosF).1 = 0 ∧ (theme.filterTotals image cosF).2 = 0) ∧
      (∀ part ∈ filter_and_separate_parts_from_part_box image theme cosF,
        part.width = image.width / 4 ∧ part.height = image.height) ∧
      (¬((theme.filterTotals image cosF).1 = 0 ∧
          (theme.filterTotals image cosF).2 = 0) →
        filter_and_separate_parts_from_part_box image theme cosF =
          (List.range
              (if (theme.filterTotals image cosF).2 > (theme.filterTotals image cosF).1
                then 3 else 4)).map
            fun i =>
              cleanPart (cropImm (theme.filterImage image)
                ((if (theme.filterTotals image cosF).2 >
                      (theme.filterTotals image cosF).1
                    then image.width / 4 / 2 else 0) +
                  i * (image.width / 4))
                0 (image.width / 4) image.height)) := by
  simp only [filter_and_separate_parts_from_part_box, Theme.filter, Theme.filterImage]
  by_cases hz : (theme.filterTotals image cosF).1 = 0 ∧ (theme.filterTotals image cosF).2 = 0
  · rw [if_pos hz]
    refine ⟨by simp [hz], by simp, fun hc => absurd hz hc⟩
  · rw [if_neg hz]
    by_cases hgt : (theme.filterTotals image cosF).2 > (theme.filterTotals image cosF).1
    · rw [if_pos hgt]
      refine ⟨?_, ?_, ?_⟩
      · simp only [List.map_eq_nil_iff, List.range_eq_nil]
        constructor
        · intro h
          omega
        · intro h
          exact absurd h hz
      · intro part hpart
        obtain ⟨i, hi, rfl⟩ := List.mem_map.mp hpart
        rw [List.mem_range] at hi
        rw [cleanPart_width, cleanPart_height]
        simp only [cropImm]
        constructor
        · show min (image.width / 4)
              (image.width - min (image.width / 4 / 2 + i * (image.width / 4)) image.width) =
            image.width / 4
          interval_cases i <;> omega
        · show min image.height (image.height - min 0 image.height) = image.height
          simp
      · intro _
        simp [hgt]
    · rw [if_neg hgt]
      refine ⟨?_, ?_, ?_⟩
      · simp only [List.map_eq_nil_iff, List.range_eq_nil]
        constructor
        · intro h
          omega
        · intro h
          exact absurd h hz
      · intro part hpart
        obtain ⟨i, hi, rfl⟩ := List.mem_map.mp hpart
        rw [List.mem_range] at hi
        rw [cleanPart_width, cleanPart_height]
        simp only [cropImm]
        constructor
        · show min (image.width / 4)
              (image.width - min (0 + i * (image.width / 4)) image.width) =
            image.width / 4
          interval_cases i <;> omega
        · show min image.height (image.height - min 0 image.height) = image.height
          simp
      · intro _
        simp [hgt]

/-- C5 witness: a uniformly white strip under the Stalker theme (whose
acceptance boxes exclude white) is fully blank, both totals are zero, and
segmentation returns the empty sequence. -/
theorem filter_and_separate_parts_spec_witness :
    filter_and_separate_parts_from_part_box (uniformImage 8 2 ⟨255, 255, 255⟩)
      (themeAt 15) (fun _ => 0) = [] :=
  (filter_and_separate_parts_spec (uniformImage 8 2 ⟨255, 255, 255⟩) (themeAt 15)
    (fun _ => 0)).1.mpr (by decide)

/-- C10: a portrait image (width < height) makes the pipeline fail with
`InvalidSize` carrying the image dimensions, before theme detection,
segmentation or OCR run — for every downstream oracle and theme arguments
— and for every landscape image (width ≥ height) the scale factor is
`height / 1080`. -/
theorem get_scale_gate (image : Image) :
    (image.width < image.height →
      ∀ (extractOcr : Image → Theme → ℚ → Except Error (List Str))
        (themes : Option (List Theme)) (theme : Option Theme),
        reward_image_to_reward_names extractOcr image themes theme =
          some (Except.error (Error.invalidSize image.width image.height))) ∧
      (image.height ≤ image.width →
        get_scale image = Except.ok ((image.height : ℚ) / 1080)) := by
  constructor
  · intro h extractOcr themes theme
    have hscale : get_scale image =
        Except.error (Error.invalidSize image.width image.height) := by
      rw [get_scale, if_neg (by omega)]
    simp only [reward_image_to_reward_names, hscale]
  · intro h
    rw [get_scale, if_pos h]
    rfl

/-- C10 witness: a 2×3 portrait image is rejected with `InvalidSize 2 3`
regardless of the OCR oracle, and a 4×3 landscape image gets scale
`3 / 1080`. -/
theorem get_scale_gate_witness :
    reward_image_to_reward_names (fun _ _ _ => Except.ok [])
        (uniformImage 2 3 ⟨0, 0, 0⟩) none none =
        some (Except.error (Error.invalidSize 2 3)) ∧
      get_scale (uniformImage 4 3 ⟨0, 0, 0⟩) = Except.ok ((3 : ℚ) / 1080) :=
  ⟨(get_scale_gate (uniformImage 2 3 ⟨0, 0, 0⟩)).1 (by decide)
      (fun _ _ _ => Except.ok []) none none,
    (get_scale_gate (uniformImage 4 3 ⟨0, 0, 0⟩)).2 (by decide)⟩

end WFP
